import Mathlib

/-!
Verification of the keyword-clustering core of this repository
(`src/tools/get_keyword_clusters.ts`, `src/lib/googleAutocomplete.ts`,
`src/lib/search.ts`) against its specification.

Strings are modelled as lists of characters (`NStr`), JavaScript numbers as
rationals (`ℚ`), JavaScript `Map`/`Set` as insertion-ordered association
lists, and the promise-based fetches as explicit `Except` values.
The wall-clock `generatedAt` field of the result is not modelled.
-/

namespace KeywordClusters

/-- Keyword strings, modelled as lists of characters. -/
abbrev NStr := List Char

/-- JavaScript `\s` whitespace class (the characters `/\s/` matches). -/
def isWsChar (c : Char) : Bool :=
  let n := c.toNat
  n = 9 || n = 10 || n = 11 || n = 12 || n = 13 || n = 32 ||
  n = 0xa0 || n = 0x1680 || (0x2000 ≤ n && n ≤ 0x200a) ||
  n = 0x2028 || n = 0x2029 || n = 0x202f || n = 0x205f || n = 0x3000 || n = 0xfeff

/-- Characters kept by the filter `replace(/[^a-z0-9\s\-]/g, '')` in
`normalize` (`get_keyword_clusters.ts`). -/
def isKept (c : Char) : Bool :=
  ('a' ≤ c && c ≤ 'z') || ('0' ≤ c && c ≤ '9') || isWsChar c || c = '-'

/-- `replace(/\s+/g, ' ')`: each maximal run of whitespace becomes a single
space.  The flag records whether the previous character was whitespace. -/
def collapseWsAux : Bool → List Char → List Char
  | _, [] => []
  | prevWs, c :: rest =>
    if isWsChar c then
      match prevWs with
      | true => collapseWsAux true rest
      | false => ' ' :: collapseWsAux true rest
    else c :: collapseWsAux false rest

def collapseWs (l : List Char) : List Char := collapseWsAux false l

/-- JavaScript `String.prototype.trim`: drop whitespace at both ends. -/
def trimWs (l : List Char) : List Char :=
  ((l.dropWhile isWsChar).reverse.dropWhile isWsChar).reverse

/-- `normalize` from `get_keyword_clusters.ts`: lowercase, drop characters
outside `[a-z0-9\s-]`, collapse whitespace runs to single spaces, trim. -/
def normalize (value : NStr) : NStr :=
  trimWs (collapseWs ((value.map Char.toLower).filter isKept))

/-- The stopword set of `get_keyword_clusters.ts`. -/
def stopwords : List NStr :=
  ["the", "and", "for", "a", "of", "to", "in", "on", "is", "with", "by",
   "from", "at", "how", "what", "why", "when", "where", "which", "an",
   "or"].map String.toList

/-- JavaScript `String.prototype.split(sep)` for a single-character
separator (`''.split(' ') = ['']`). -/
def splitOnCharAux (sep : Char) : List Char → List Char → List (List Char)
  | [], acc => [acc.reverse]
  | c :: rest, acc =>
    if c = sep then acc.reverse :: splitOnCharAux sep rest []
    else splitOnCharAux sep rest (c :: acc)

def splitOnChar (sep : Char) (l : List Char) : List (List Char) :=
  splitOnCharAux sep l []

/-- `tokenize` from `get_keyword_clusters.ts`: split the normalized string
on spaces and keep tokens longer than one character that are not stopwords. -/
def tokenize (value : NStr) : List NStr :=
  (splitOnChar ' ' (normalize value)).filter
    (fun token => decide (1 < token.length ∧ token ∉ stopwords))

/-- A character the spec allows in `normalize` output: `[a-z0-9 -]`. -/
def isSpecAllowed (c : Char) : Bool :=
  ('a' ≤ c && c ≤ 'z') || ('0' ≤ c && c ≤ '9') || c = ' ' || c = '-'

section NormalizeLemmas

lemma collapseWsAux_mem (flag : Bool) (l : List Char) (c : Char)
    (hc : c ∈ collapseWsAux flag l) : c = ' ' ∨ (c ∈ l ∧ isWsChar c = false) := by
  induction l generalizing flag with
  | nil => simp [collapseWsAux] at hc
  | cons d rest ih =>
    simp only [collapseWsAux] at hc
    by_cases hd : isWsChar d
    · rw [if_pos hd] at hc
      cases flag with
      | true =>
        rcases ih true hc with h | ⟨hmem, hnw⟩
        · exact Or.inl h
        · exact Or.inr ⟨List.mem_cons_of_mem _ hmem, hnw⟩
      | false =>
        rcases List.mem_cons.mp hc with rfl | hc'
        · exact Or.inl rfl
        · rcases ih true hc' with h | ⟨hmem, hnw⟩
          · exact Or.inl h
          · exact Or.inr ⟨List.mem_cons_of_mem _ hmem, hnw⟩
    · rw [if_neg hd] at hc
      rcases List.mem_cons.mp hc with rfl | hc'
      · exact Or.inr ⟨List.mem_cons_self _ _, by simpa using hd⟩
      · rcases ih false hc' with h | ⟨hmem, hnw⟩
        · exact Or.inl h
        · exact Or.inr ⟨List.mem_cons_of_mem _ hmem, hnw⟩

lemma trimWs_front (l : List Char) : trimWs l <+: l.dropWhile isWsChar := by
  unfold trimWs
  obtain ⟨w, hw⟩ :=
    List.dropWhile_suffix (l := (l.dropWhile isWsChar).reverse) (p := isWsChar)
  refine ⟨w.reverse, ?_⟩
  calc ((l.dropWhile isWsChar).reverse.dropWhile isWsChar).reverse ++ w.reverse
      = (w ++ (l.dropWhile isWsChar).reverse.dropWhile isWsChar).reverse := by
        rw [List.reverse_append]
    _ = (l.dropWhile isWsChar).reverse.reverse := by rw [hw]
    _ = l.dropWhile isWsChar := List.reverse_reverse _

lemma trimWs_sublist (l : List Char) : (trimWs l).Sublist l :=
  (trimWs_front l).sublist.trans (List.dropWhile_sublist isWsChar)

lemma trimWs_chain {R : Char → Char → Prop} (hsymm : ∀ a b, R a b → R b a)
    (l : List Char) (h : l.Chain' R) : (trimWs l).Chain' R := by
  unfold trimWs
  have h1 : (l.dropWhile isWsChar).Chain' R := h.suffix (List.dropWhile_suffix _)
  have h2 : (l.dropWhile isWsChar).reverse.Chain' R := by
    rw [List.chain'_reverse]
    exact h1.imp (fun a b hab => hsymm a b hab)
  have h3 : ((l.dropWhile isWsChar).reverse.dropWhile isWsChar).Chain' R :=
    h2.suffix (List.dropWhile_suffix _)
  rw [List.chain'_reverse]
  exact h3.imp (fun a b hab => hsymm a b hab)

lemma mem_trimWs {c : Char} {l : List Char} (hc : c ∈ trimWs l) : c ∈ l :=
  (trimWs_sublist l).mem hc

lemma normalize_chars (value : NStr) (c : Char) (hc : c ∈ normalize value) :
    isSpecAllowed c = true := by
  unfold normalize at hc
  have hc' := mem_trimWs hc
  rcases collapseWsAux_mem false _ c hc' with rfl | ⟨hmem, hnw⟩
  · simp [isSpecAllowed]
  · have hkept : isKept c = true := List.of_mem_filter hmem
    unfold isKept at hkept
    unfold isSpecAllowed
    simp only [Bool.or_eq_true, decide_eq_true_eq] at hkept ⊢
    rcases hkept with ((h | h) | h) | h
    · exact Or.inl (Or.inl (Or.inl h))
    · exact Or.inl (Or.inl (Or.inr h))
    · rw [hnw] at h; exact absurd h (by simp)
    · exact Or.inr h

lemma collapseWsAux_head?_true (l : List Char) (c : Char)
    (h : (collapseWsAux true l).head? = some c) : isWsChar c = false := by
  induction l with
  | nil => simp [collapseWsAux] at h
  | cons d rest ih =>
    simp only [collapseWsAux] at h
    by_cases hd : isWsChar d
    · rw [if_pos hd] at h; exact ih h
    · rw [if_neg hd] at h
      simp only [List.head?_cons, Option.some.injEq] at h
      subst h; simpa using hd

/-- In the output of `collapseWsAux`, a space is never followed by a space. -/
lemma collapseWsAux_chain (flag : Bool) (l : List Char) :
    (collapseWsAux flag l).Chain' (fun a b => ¬(a = ' ' ∧ b = ' ')) := by
  induction l generalizing flag with
  | nil => simp [collapseWsAux]
  | cons d rest ih =>
    simp only [collapseWsAux]
    by_cases hd : isWsChar d
    · rw [if_pos hd]
      cases flag with
      | true => exact ih true
      | false =>
        rw [List.chain'_cons']
        refine ⟨?_, ih true⟩
        intro y hy ⟨_, hy'⟩
        subst hy'
        have := collapseWsAux_head?_true rest ' ' hy
        simp [isWsChar] at this
    · rw [if_neg hd]
      rw [List.chain'_cons']
      refine ⟨?_, ih false⟩
      intro y hy ⟨hd', _⟩
      subst hd'
      simp [isWsChar] at hd

lemma trimWs_getLast? (l : List Char) (c : Char)
    (h : (trimWs l).getLast? = some c) : isWsChar c = false := by
  unfold trimWs at h
  rw [List.getLast?_reverse] at h
  have := List.head?_dropWhile_not isWsChar (l.dropWhile isWsChar).reverse
  rw [h] at this
  exact this

lemma trimWs_head? (l : List Char) (c : Char)
    (h : (trimWs l).head? = some c) : isWsChar c = false := by
  unfold trimWs at h
  rw [List.head?_reverse] at h
  obtain ⟨w, hw⟩ :=
    List.dropWhile_suffix (l := (l.dropWhile isWsChar).reverse) (p := isWsChar)
  have h1 : (l.dropWhile isWsChar).reverse.getLast? = some c := by
    rw [← hw, List.getLast?_append, h]; rfl
  rw [List.getLast?_reverse] at h1
  have h2 := List.head?_dropWhile_not isWsChar l
  rw [h1] at h2
  exact h2

end NormalizeLemmas

/-- C5. For every input string, `normalize` produces only characters in
`[a-z0-9 -]` (the lowercase requirement is subsumed: no uppercase letter is
in this set), never places two spaces next to each other (whitespace runs
are collapsed), starts and ends with a non-space character (trimmed), and
maps the empty string to the empty string.  As a Lean function it is
deterministic, pure and total by construction. -/
theorem C5_normalize_spec (value : NStr) :
    (∀ c ∈ normalize value, isSpecAllowed c = true)
    ∧ (normalize value).Chain' (fun a b => ¬(a = ' ' ∧ b = ' '))
    ∧ (normalize value).head? ≠ some ' '
    ∧ (normalize value).getLast? ≠ some ' '
    ∧ normalize ([] : NStr) = [] := by
  refine ⟨normalize_chars value, ?_, ?_, ?_, rfl⟩
  · exact trimWs_chain (by tauto) _ (collapseWsAux_chain false _)
  · intro h
    have := trimWs_head? _ _ h
    simp [isWsChar] at this
  · intro h
    have := trimWs_getLast? _ _ h
    simp [isWsChar] at this

/-- `normalize` evaluates as expected on a concrete mixed input. -/
theorem C5_normalize_witness :
    isSpecAllowed 'h' = true :=
  (C5_normalize_spec ("  Hello,  World! ".toList)).1 'h' (by decide)

/-- Per-keyword metrics entry of the clustering engine
(`KeywordMetrics` in `get_keyword_clusters.ts`).  `pages` models the
JavaScript `Set` as an insertion-ordered duplicate-free list. -/
structure KeywordMetrics where
  keyword : NStr
  tokens : List NStr
  pages : List NStr
  clicks : ℚ
  impressions : ℚ
  ctrs : List ℚ
  positions : List ℚ
deriving DecidableEq

/-- `jaccard` from `get_keyword_clusters.ts`; the two arguments are token
sets, represented as duplicate-free lists. -/
def jaccard (a b : List NStr) : ℚ :=
  let intersection := (a.filter (fun token => decide (token ∈ b))).length
  if intersection = 0 then 0
  else (intersection : ℚ) / ((a.length : ℚ) + (b.length : ℚ) - (intersection : ℚ))

/-- One row of the Levenshtein matrix after the first entry: carries the
diagonal value, the rest of the previous row and the value just written. -/
def levRowAux (x : Char) : List Char → ℕ → List ℕ → ℕ → List ℕ
  | [], _, _, _ => []
  | y :: ys, diag, prevTail, left =>
    match prevTail with
    | [] => []
    | up :: rest =>
      let cost := if x = y then 0 else 1
      let v := min (min (up + 1) (left + 1)) (diag + cost)
      v :: levRowAux x ys up rest v

/-- The next row of the Levenshtein dynamic-programming matrix. -/
def levRow (x : Char) (b : List Char) (prev : List ℕ) : List ℕ :=
  match prev with
  | [] => []
  | p0 :: rest => (p0 + 1) :: levRowAux x b p0 rest (p0 + 1)

/-- Classic dynamic-programming edit distance (insert/delete/substitute each
cost 1), computed row by row exactly as the matrix in `levenshteinNorm` of
`get_keyword_clusters.ts`; the result is the bottom-right matrix cell. -/
def levenshtein (a b : NStr) : ℕ :=
  (a.foldl (fun prev x => levRow x b prev) (List.range (b.length + 1))).getLastD 0

/-- `levenshteinNorm` from `get_keyword_clusters.ts`: edit distance divided
by the longer length, with the two-empty-strings case defined to be 0. -/
def levenshteinNorm (a b : NStr) : ℚ :=
  if a.length = 0 ∧ b.length = 0 then 0
  else (levenshtein a b : ℚ) / ((max a.length b.length : ℕ) : ℚ)

/-- The pairwise similarity computed inline in the O(n²) loop of
`getKeywordClusters` (lines 260–275): start at 0, fold in the Jaccard
signal (only when ≥ 0.6), the shared-page signal (fixed 0.3) and the
near-duplicate signal (fixed 0.7), each via `max`. -/
def similarity (mA mB : KeywordMetrics) : ℚ :=
  let jac := jaccard mA.tokens.dedup mB.tokens.dedup
  let s0 : ℚ := 0
  let s1 := if (0.6 : ℚ) ≤ jac then max s0 jac else s0
  let sharePage := 0 < mA.pages.length ∧ 0 < mB.pages.length
  let shared := mA.pages.any (fun page => decide (page ∈ mB.pages))
  let s2 := if sharePage ∧ shared then max s1 (0.3 : ℚ) else s1
  let lev := levenshteinNorm mA.keyword mB.keyword
  if lev ≤ (0.15 : ℚ) ∧ (0.4 : ℚ) ≤ jac then max s2 (0.7 : ℚ) else s2

/-- An edge is added between two keywords iff their similarity reaches the
0.6 threshold (line 276 of `get_keyword_clusters.ts`). -/
def hasEdge (mA mB : KeywordMetrics) : Bool :=
  decide ((0.6 : ℚ) ≤ similarity mA mB)

/-- The similarity computation with the shared-destination-page signal
removed — the comparison point of the refinement claim. -/
def similarityNoPage (mA mB : KeywordMetrics) : ℚ :=
  let jac := jaccard mA.tokens.dedup mB.tokens.dedup
  let s0 : ℚ := 0
  let s1 := if (0.6 : ℚ) ≤ jac then max s0 jac else s0
  let lev := levenshteinNorm mA.keyword mB.keyword
  if lev ≤ (0.15 : ℚ) ∧ (0.4 : ℚ) ≤ jac then max s1 (0.7 : ℚ) else s1

def hasEdgeNoPage (mA mB : KeywordMetrics) : Bool :=
  decide ((0.6 : ℚ) ≤ similarityNoPage mA mB)

section SimilarityLemmas

lemma jaccard_nonneg (a b : List NStr) : 0 ≤ jaccard a b := by
  unfold jaccard
  by_cases h : (a.filter (fun token => decide (token ∈ b))).length = 0
  · rw [if_pos h]
  · rw [if_neg h]
    have h1 : 1 ≤ (a.filter (fun token => decide (token ∈ b))).length :=
      Nat.one_le_iff_ne_zero.mpr h
    have h2 : (a.filter (fun token => decide (token ∈ b))).length ≤ a.length :=
      List.length_filter_le _ _
    apply div_nonneg
    · positivity
    · have : ((a.filter (fun token => decide (token ∈ b))).length : ℚ) ≤ (a.length : ℚ) := by
        exact_mod_cast h2
      have hb : (0 : ℚ) ≤ (b.length : ℚ) := by positivity
      linarith

lemma ite_max_eq {c : Prop} [Decidable c] (x y : ℚ) (hx : 0 ≤ x) :
    (if c then max x y else x) = max x (if c then y else 0) := by
  by_cases h : c
  · rw [if_pos h, if_pos h]
  · rw [if_neg h, if_neg h, max_eq_left hx]

/-- The Jaccard signal: the Jaccard value, counted only when ≥ 0.6. -/
def jacSignal (mA mB : KeywordMetrics) : ℚ :=
  if (0.6 : ℚ) ≤ jaccard mA.tokens.dedup mB.tokens.dedup then
    jaccard mA.tokens.dedup mB.tokens.dedup else 0

/-- The shared-destination-page signal: fixed 0.3 when both keywords have a
page and at least one page is common. -/
def pageSignal (mA mB : KeywordMetrics) : ℚ :=
  if (0 < mA.pages.length ∧ 0 < mB.pages.length) ∧
      mA.pages.any (fun page => decide (page ∈ mB.pages)) then (0.3 : ℚ) else 0

/-- The near-duplicate signal: fixed 0.7 when normalized edit distance
≤ 0.15 and Jaccard ≥ 0.4. -/
def levSignal (mA mB : KeywordMetrics) : ℚ :=
  if levenshteinNorm mA.keyword mB.keyword ≤ (0.15 : ℚ) ∧
      (0.4 : ℚ) ≤ jaccard mA.tokens.dedup mB.tokens.dedup then (0.7 : ℚ) else 0

lemma jacSignal_nonneg (mA mB : KeywordMetrics) : 0 ≤ jacSignal mA mB := by
  unfold jacSignal
  by_cases h : (0.6 : ℚ) ≤ jaccard mA.tokens.dedup mB.tokens.dedup
  · rw [if_pos h]; exact jaccard_nonneg _ _
  · rw [if_neg h]

lemma similarity_eq_max (mA mB : KeywordMetrics) :
    similarity mA mB = max (max (jacSignal mA mB) (pageSignal mA mB)) (levSignal mA mB) := by
  have hjac := jaccard_nonneg mA.tokens.dedup mB.tokens.dedup
  simp only [similarity]
  have h1 : (if (0.6 : ℚ) ≤ jaccard mA.tokens.dedup mB.tokens.dedup then
      max 0 (jaccard mA.tokens.dedup mB.tokens.dedup) else 0) = jacSignal mA mB := by
    unfold jacSignal
    by_cases h : (0.6 : ℚ) ≤ jaccard mA.tokens.dedup mB.tokens.dedup
    · rw [if_pos h, if_pos h, max_eq_right hjac]
    · rw [if_neg h, if_neg h]
  rw [h1, ite_max_eq _ _ (jacSignal_nonneg mA mB)]
  rw [ite_max_eq _ _ (le_max_of_le_left (jacSignal_nonneg mA mB))]
  rfl

lemma similarityNoPage_eq_max (mA mB : KeywordMetrics) :
    similarityNoPage mA mB = max (jacSignal mA mB) (levSignal mA mB) := by
  have hjac := jaccard_nonneg mA.tokens.dedup mB.tokens.dedup
  simp only [similarityNoPage]
  have h1 : (if (0.6 : ℚ) ≤ jaccard mA.tokens.dedup mB.tokens.dedup then
      max 0 (jaccard mA.tokens.dedup mB.tokens.dedup) else 0) = jacSignal mA mB := by
    unfold jacSignal
    by_cases h : (0.6 : ℚ) ≤ jaccard mA.tokens.dedup mB.tokens.dedup
    · rw [if_pos h, if_pos h, max_eq_right hjac]
    · rw [if_neg h, if_neg h]
  rw [h1, ite_max_eq _ _ (jacSignal_nonneg mA mB)]
  rfl

/-- Pointwise: dropping the shared-page signal does not change whether a
pair clears the 0.6 edge threshold, because that signal is at most 0.3. -/
lemma hasEdge_eq_hasEdgeNoPage (mA mB : KeywordMetrics) :
    hasEdge mA mB = hasEdgeNoPage mA mB := by
  unfold hasEdge hasEdgeNoPage
  rw [similarity_eq_max, similarityNoPage_eq_max]
  rw [decide_eq_decide]
  constructor
  · intro h
    rcases le_max_iff.mp h with h1 | h2
    · rcases le_max_iff.mp h1 with ha | hb
      · exact le_max_of_le_left ha
      · exfalso
        unfold pageSignal at hb
        by_cases hc : (0 < mA.pages.length ∧ 0 < mB.pages.length) ∧
            mA.pages.any (fun page => decide (page ∈ mB.pages))
        · rw [if_pos hc] at hb; norm_num at hb
        · rw [if_neg hc] at hb; norm_num at hb
    · exact le_max_of_le_right h2
  · intro h
    rcases le_max_iff.mp h with ha | hb
    · exact le_max_of_le_left (le_max_of_le_left ha)
    · exact le_max_of_le_right hb

/-- Pointwise characterization of the edge relation without the page
signal. -/
lemma hasEdge_iff_jac_or_lev (mA mB : KeywordMetrics) :
    hasEdge mA mB = true ↔
      ((0.6 : ℚ) ≤ jaccard mA.tokens.dedup mB.tokens.dedup ∨
        (levenshteinNorm mA.keyword mB.keyword ≤ (0.15 : ℚ) ∧
          (0.4 : ℚ) ≤ jaccard mA.tokens.dedup mB.tokens.dedup)) := by
  rw [hasEdge_eq_hasEdgeNoPage]
  unfold hasEdgeNoPage
  rw [decide_eq_true_iff, similarityNoPage_eq_max, le_max_iff]
  unfold jacSignal levSignal
  constructor
  · intro h
    rcases h with h1 | h2
    · by_cases hc : (0.6 : ℚ) ≤ jaccard mA.tokens.dedup mB.tokens.dedup
      · exact Or.inl hc
      · rw [if_neg hc] at h1; norm_num at h1
    · by_cases hc : levenshteinNorm mA.keyword mB.keyword ≤ (0.15 : ℚ) ∧
          (0.4 : ℚ) ≤ jaccard mA.tokens.dedup mB.tokens.dedup
      · exact Or.inr hc
      · rw [if_neg hc] at h2; norm_num at h2
  · intro h
    rcases h with h1 | h2
    · exact Or.inl (by rw [if_pos h1]; exact h1)
    · exact Or.inr (by rw [if_pos h2]; norm_num)

end SimilarityLemmas

/-- C3. For every pair of keyword entries, the similarity score equals
the maximum of the three signals — the Jaccard token overlap counted only
when it is ≥ 0.6, a fixed 0.3 when both keywords have at least one page and
share a common page, and a fixed 0.7 when normalized Levenshtein distance
≤ 0.15 and Jaccard ≥ 0.4 jointly hold — and an edge is added iff this
maximum is ≥ 0.6. -/
theorem C3_similarity_is_max_of_signals (mA mB : KeywordMetrics) :
    similarity mA mB =
      max (max
        (if (0.6 : ℚ) ≤ jaccard mA.tokens.dedup mB.tokens.dedup then
          jaccard mA.tokens.dedup mB.tokens.dedup else 0)
        (if (0 < mA.pages.length ∧ 0 < mB.pages.length) ∧
            mA.pages.any (fun page => decide (page ∈ mB.pages)) then (0.3 : ℚ) else 0))
        (if levenshteinNorm mA.keyword mB.keyword ≤ (0.15 : ℚ) ∧
            (0.4 : ℚ) ≤ jaccard mA.tokens.dedup mB.tokens.dedup then (0.7 : ℚ) else 0)
    ∧ (hasEdge mA mB = true ↔
        (0.6 : ℚ) ≤ max (max (jacSignal mA mB) (pageSignal mA mB)) (levSignal mA mB)) := by
  refine ⟨similarity_eq_max mA mB, ?_⟩
  rw [hasEdge, decide_eq_true_iff, similarity_eq_max]

/-! ### The clustering pipeline -/

/-- A Search Console analytics row (`GscRow` in `src/lib/gsc.ts`); the
fetch layer (`mapRows`) always fills every field, defaulting numbers to 0
and strings to the empty string. -/
structure GscRow where
  query : NStr
  page : NStr
  clicks : ℚ
  impressions : ℚ
  ctr : ℚ
  position : ℚ
deriving DecidableEq

/-- Lookup in an insertion-ordered association list (JavaScript `Map.get`). -/
def assocGet {α β : Type} [DecidableEq α] : List (α × β) → α → Option β
  | [], _ => none
  | (k', v) :: rest, k => if k' = k then some v else assocGet rest k

/-- `Map.set`: replace the value in place if the key exists, else append. -/
def assocSet {α β : Type} [DecidableEq α] : List (α × β) → α → β → List (α × β)
  | [], k, v => [(k, v)]
  | (k', v') :: rest, k, v =>
    if k' = k then (k', v) :: rest else (k', v') :: assocSet rest k v

/-- `Set.add`: append the element if it is not already present. -/
def setInsert (l : List NStr) (x : NStr) : List NStr :=
  if x ∈ l then l else l ++ [x]

/-- The keyword map of `getKeywordClusters`, keyed by normalized keyword. -/
abbrev KMap := List (NStr × KeywordMetrics)

/-- `toKeywordMetrics` from `get_keyword_clusters.ts`.  JavaScript
truthiness: an all-zero `ctr` and an empty `page` are falsy. -/
def toKeywordMetrics (row : GscRow) : KeywordMetrics :=
  let keyword := normalize row.query
  { keyword := keyword
    tokens := tokenize keyword
    pages := if row.page ≠ [] then [row.page] else []
    clicks := row.clicks
    impressions := row.impressions
    ctrs := if row.ctr ≠ 0 then [row.ctr] else []
    positions := [row.position] }

/-- Merging one analytics row into the keyword map (lines 209–230 of
`get_keyword_clusters.ts`).  On an existing entry `ctr` and `position` are
always appended (the code only checks them against `undefined`, and the
fetch layer always supplies them), and a non-empty page is added. -/
def addRow (m : KMap) (row : GscRow) : KMap :=
  let normalized := normalize row.query
  if normalized = [] then m
  else
    match assocGet m normalized with
    | some existing =>
      assocSet m normalized
        { existing with
          clicks := existing.clicks + row.clicks
          impressions := existing.impressions + row.impressions
          ctrs := existing.ctrs ++ [row.ctr]
          positions := existing.positions ++ [row.position]
          pages := if row.page ≠ [] then setInsert existing.pages row.page
                   else existing.pages }
    | none => m ++ [(normalized, toKeywordMetrics row)]

def buildKeywordMap (rows : List GscRow) : KMap := rows.foldl addRow []

/-- The zero-metric entry created for an expansion term (lines 237–245). -/
def zeroMetrics (normalized : NStr) : KeywordMetrics :=
  { keyword := normalized
    tokens := tokenize normalized
    pages := []
    clicks := 0
    impressions := 0
    ctrs := []
    positions := [] }

/-- Merging one autocomplete seed (lines 232–246): skipped when its
normalized form is empty or already a key, otherwise appended as a
zero-metric entry. -/
def addSeed (m : KMap) (seed : NStr) : KMap :=
  let normalized := normalize seed
  if normalized = [] then m
  else
    match assocGet m normalized with
    | some _ => m
    | none => m ++ [(normalized, zeroMetrics normalized)]

def addSeeds (m : KMap) (seeds : List NStr) : KMap := seeds.foldl addSeed m

/-- The keyword map built by one invocation: analytics rows first, then
expansion seeds. -/
def keywordMapOf (rows : List GscRow) (seeds : List NStr) : KMap :=
  addSeeds (buildKeywordMap rows) seeds

/-- All ordered pairs `(keywords[i], keywords[j])` with `i < j`, in the
order of the double loop of lines 251–283. -/
def orderedPairs {α : Type} : List α → List (α × α)
  | [] => []
  | x :: xs => xs.map (fun y => (x, y)) ++ orderedPairs xs

/-- The edge test of the pair loop, with a parametric edge predicate:
missing metrics mean no edge (the `continue` of line 258). -/
def hasEdgeKWith (edge : KeywordMetrics → KeywordMetrics → Bool)
    (kmap : KMap) (a b : NStr) : Bool :=
  match assocGet kmap a, assocGet kmap b with
  | some mA, some mB => edge mA mB
  | _, _ => false

/-- Union-find `find` (lines 286–292), with explicit fuel instead of
recursion on the parent chain; `parent.length + 1` fuel always reaches the
root of an acyclic forest over the keys. -/
def ufFind (parent : List (NStr × NStr)) : ℕ → NStr → NStr
  | 0, k => k
  | fuel + 1, k =>
    match assocGet parent k with
    | some p => if p = k then k else ufFind parent fuel p
    | none => k

/-- Union-find `union` (lines 293–299): point `find b`'s root at `find a`'s
root. -/
def ufUnion (parent : List (NStr × NStr)) (a b : NStr) : List (NStr × NStr) :=
  let rootA := ufFind parent (parent.length + 1) a
  let rootB := ufFind parent (parent.length + 1) b
  if rootA = rootB then parent else assocSet parent rootB rootA

/-- Append `k` to the group of its root, keeping first-seen group order
(the `clustersMap` of lines 310–319). -/
def addToGroups (k root : NStr) : List (NStr × List NStr) → List (NStr × List NStr)
  | [] => [(root, [k])]
  | (r, ms) :: rest =>
    if r = root then (r, ms ++ [k]) :: rest else (r, ms) :: addToGroups k root rest

def groupByRoot (f : NStr → NStr) (keywords : List NStr) : List (NStr × List NStr) :=
  keywords.foldl (fun acc k => addToGroups k (f k) acc) []

/-- `avg` from `get_keyword_clusters.ts`. -/
def avg (values : List ℚ) : ℚ :=
  if values.length = 0 then 0 else values.sum / (values.length : ℚ)

/-- `norm` from `get_keyword_clusters.ts`: saturating normalization. -/
def norm (value : ℚ) : ℚ :=
  let safe := max 0 value
  min 1 (safe / (safe + 1000))

/-- JavaScript `Math.round`: round half toward positive infinity. -/
def jsRound (x : ℚ) : ℤ := ⌊x + 1 / 2⌋

/-- Per-page aggregate within one cluster (`PageAggregate`). -/
structure PageAggregate where
  impr : ℚ
  clicks : ℚ
  pos : List ℚ
  ctr : List ℚ
deriving DecidableEq

/-- `scorePageAggregate` from `get_keyword_clusters.ts`. -/
def scorePageAggregate (aggregate : PageAggregate) : ℚ :=
  0.6 * aggregate.impr + 5 * aggregate.clicks - 50 * avg aggregate.pos +
    1000 * avg aggregate.ctr

/-- Stable insertion sort with a "may precede" predicate; mirrors
JavaScript's stable `Array.prototype.sort` with a numeric comparator:
`pred x y` holds when `comparator(x, y) ≤ 0`. -/
def insertBefore {α : Type} (pred : α → α → Bool) (x : α) : List α → List α
  | [] => [x]
  | y :: ys => if pred x y then x :: y :: ys else y :: insertBefore pred x ys

def sortByComparator {α : Type} (pred : α → α → Bool) : List α → List α
  | [] => []
  | x :: xs => insertBefore pred x (sortByComparator pred xs)

/-- Adjacent token pairs, as enumerated by the bigram loop of
`mostCommonBigram`. -/
def adjacentPairs {α : Type} : List α → List (α × α)
  | x :: y :: rest => (x, y) :: adjacentPairs (y :: rest)
  | _ => []

/-- Increment a bigram's counter, creating it at the end on first sight
(JavaScript `Map` insertion order). -/
def bumpCount : List (NStr × ℕ) → NStr → List (NStr × ℕ)
  | [], k => [(k, 1)]
  | (k', c) :: rest, k =>
    if k' = k then (k', c + 1) :: rest else (k', c) :: bumpCount rest k

/-- `mostCommonBigram` from `get_keyword_clusters.ts`: most frequent
adjacent two-token sequence, ties by first insertion, falling back to the
first member keyword. -/
def mostCommonBigram (keywords : List NStr) : NStr :=
  let counter := keywords.foldl (fun ctr kw =>
    (adjacentPairs (tokenize kw)).foldl
      (fun c p => bumpCount c (p.1 ++ ' ' :: p.2)) ctr) []
  match sortByComparator (fun a b => decide (b.2 ≤ a.2)) counter with
  | [] => keywords.headD []
  | best :: _ => best.1

inductive PageType where
  | existing
  | new
deriving DecidableEq

/-- The `mappedPage` discriminated union of the output. -/
inductive MappedPage where
  | existing (url : NStr)
  | new (suggestedSlug : NStr)
deriving DecidableEq

def MappedPage.type : MappedPage → PageType
  | .existing _ => .existing
  | .new _ => .new

/-- `recommendationMessages` from `get_keyword_clusters.ts`. -/
def recommendationMessages (mappedType : PageType) (avgPosition avgCtr : ℚ)
    (label : NStr) : List String :=
  (if mappedType = PageType.existing ∧ 5 < avgPosition ∧ avgPosition < 15 then
    ["Update page for \"" ++ String.mk label ++ "\" with FAQs and subtopics."]
   else []) ++
  (if mappedType = PageType.new ∧ 15 < avgPosition then
    ["Create a new page targeting \"" ++ String.mk label ++ "\"."]
   else []) ++
  (if avgCtr < (0.02 : ℚ) ∧ avgPosition ≤ 5 then
    ["Improve meta title for \"" ++ String.mk label ++ "\" to boost CTR."]
   else []) ++
  ["Add internal links from related pages."]

/-- Cluster rollup (`rollup` in the output entity). -/
structure Rollup where
  keywords : ℕ
  sumImpressions : ℚ
  sumClicks : ℚ
  avgCtr : ℚ
  avgPosition : ℚ
deriving DecidableEq

/-- Per-member detail (`keywords[]` in the output entity). -/
structure KeywordDetail where
  keyword : NStr
  clicks : ℚ
  impressions : ℚ
  avgCtr : ℚ
  avgPosition : ℚ
  pages : List NStr
deriving DecidableEq

structure KeywordClusterRecommendation where
  label : NStr
  priority : ℤ
  representativeKeyword : NStr
  mappedPage : MappedPage
  rollup : Rollup
  keywords : List KeywordDetail
  recommendations : List String
deriving DecidableEq

/-- Running state of the per-cluster member loop (lines 325–361). -/
structure ClusterAccum where
  sumImpressions : ℚ
  sumClicks : ℚ
  ctrSum : ℚ
  ctrCount : ℕ
  posSum : ℚ
  posCount : ℕ
  pageAggregates : List (NStr × PageAggregate)
deriving DecidableEq

def accumInit : ClusterAccum := ⟨0, 0, 0, 0, 0, 0, []⟩

/-- One member's contribution to the cluster accumulators: a keyword
missing from the map is skipped (`continue`, line 336). -/
def accumMember (kmap : KMap) (acc : ClusterAccum) (kw : NStr) : ClusterAccum :=
  match assocGet kmap kw with
  | none => acc
  | some metrics =>
    { sumImpressions := acc.sumImpressions + metrics.impressions
      sumClicks := acc.sumClicks + metrics.clicks
      ctrSum := if metrics.ctrs.length ≠ 0 then acc.ctrSum + avg metrics.ctrs
                else acc.ctrSum
      ctrCount := if metrics.ctrs.length ≠ 0 then acc.ctrCount + 1 else acc.ctrCount
      posSum := if metrics.positions.length ≠ 0 then acc.posSum + avg metrics.positions
                else acc.posSum
      posCount := if metrics.positions.length ≠ 0 then acc.posCount + 1
                  else acc.posCount
      pageAggregates := metrics.pages.foldl (fun aggs page =>
        let aggregate := (assocGet aggs page).getD ⟨0, 0, [], []⟩
        assocSet aggs page
          { impr := aggregate.impr + metrics.impressions
            clicks := aggregate.clicks + metrics.clicks
            pos := aggregate.pos ++ metrics.positions
            ctr := aggregate.ctr ++ metrics.ctrs }) acc.pageAggregates }

/-- The priority formula of lines 389–395 of `get_keyword_clusters.ts`. -/
def priorityScore (sumImpressions avgCtr avgPosition : ℚ)
    (mappedType : PageType) : ℤ :=
  jsRound (100 *
    ((0.35 : ℚ) * norm sumImpressions +
     (0.25 : ℚ) * norm avgCtr +
     (0.2 : ℚ) * (1 - norm avgPosition) +
     (0.15 : ℚ) * (if mappedType = PageType.new then 1 else 0)))

/-- The suggested slug for a new page: first three space-separated chunks
of the first member keyword joined by hyphens, prefixed with `/`. -/
def suggestedSlugOf (clusterKeywords : List NStr) : NStr :=
  '/' :: List.intercalate ['-'] ((splitOnChar ' ' (clusterKeywords.headD [])).take 3)

/-- The map of one cluster's member list to the output entity
(lines 323–423 of `get_keyword_clusters.ts`). -/
def clusterToRec (kmap : KMap) (clusterKeywords : List NStr) :
    KeywordClusterRecommendation :=
  let acc := clusterKeywords.foldl (accumMember kmap) accumInit
  let avgCtr := if acc.ctrCount = 0 then 0 else acc.ctrSum / (acc.ctrCount : ℚ)
  let avgPosition := if acc.posCount = 0 then 0 else acc.posSum / (acc.posCount : ℚ)
  let mappedPage :=
    if 0 < acc.pageAggregates.length then
      match sortByComparator
          (fun a b => decide (scorePageAggregate b.2 ≤ scorePageAggregate a.2))
          acc.pageAggregates with
      | best :: _ => MappedPage.existing best.1
      | [] => MappedPage.new (suggestedSlugOf clusterKeywords)
    else MappedPage.new (suggestedSlugOf clusterKeywords)
  let label := mostCommonBigram clusterKeywords
  let representative := (sortByComparator (fun a b =>
      decide (((assocGet kmap b).map KeywordMetrics.impressions).getD 0 ≤
        ((assocGet kmap a).map KeywordMetrics.impressions).getD 0))
      clusterKeywords).headD []
  let priority := priorityScore acc.sumImpressions avgCtr avgPosition mappedPage.type
  { label := label
    priority := priority
    representativeKeyword := representative
    mappedPage := mappedPage
    rollup :=
      { keywords := clusterKeywords.length
        sumImpressions := acc.sumImpressions
        sumClicks := acc.sumClicks
        avgCtr := avgCtr
        avgPosition := avgPosition }
    keywords := clusterKeywords.map (fun kw =>
      let m := (assocGet kmap kw).getD (zeroMetrics kw)
      { keyword := kw
        clicks := m.clicks
        impressions := m.impressions
        avgCtr := avg m.ctrs
        avgPosition := avg m.positions
        pages := m.pages })
    recommendations := recommendationMessages mappedPage.type avgPosition avgCtr label }

/-- The clustering stage (lines 248–424), with a parametric pairwise edge
predicate.  The source processes unions by iterating the adjacency record
in insertion order; here each undirected edge is unioned once, in pair-loop
order, which performs the same unions up to duplicates — union-find's final
partition, and hence the grouping below, does not depend on this order. -/
def clusterCoreWith (edge : KeywordMetrics → KeywordMetrics → Bool)
    (kmap : KMap) (maxKeywords : ℕ) : List KeywordClusterRecommendation :=
  let keywords := (kmap.map Prod.fst).take maxKeywords
  let edgeList := (orderedPairs keywords).filter
    (fun p => hasEdgeKWith edge kmap p.1 p.2)
  let parent0 := keywords.map (fun k => (k, k))
  let parent := edgeList.foldl (fun p pr => ufUnion p pr.1 pr.2) parent0
  let groups := groupByRoot (fun k => ufFind parent (parent.length + 1) k) keywords
  let clusters := (groups.map Prod.snd).filter (fun g => 0 < g.length)
  sortByComparator (fun a b => decide (b.priority ≤ a.priority))
    (clusters.map (clusterToRec kmap))

def clusterCore (kmap : KMap) (maxKeywords : ℕ) : List KeywordClusterRecommendation :=
  clusterCoreWith hasEdge kmap maxKeywords

/-- The result structure, without the wall-clock `generatedAt` field. -/
structure KeywordClustersResult where
  query : NStr
  siteUrl : NStr
  geo : NStr
  timeRange : NStr
  includeAutocomplete : Bool
  clusters : List KeywordClusterRecommendation
deriving DecidableEq

/-- `getKeywordClusters` (lines 190–435): the two fetches are passed in as
`Except` values; `Promise.all` fails the invocation when either fetched
promise rejects, and the autocomplete fetch is only consulted when
`includeAutocomplete` is set and the seed query is non-empty. -/
def getKeywordClusters (query siteUrl geo timeRange : NStr)
    (includeAutocomplete : Bool) (maxKeywords : ℕ)
    (gscResult : Except String (List GscRow))
    (autoResult : Except String (List NStr)) :
    Except String KeywordClustersResult := do
  let gscRows ← gscResult
  let autocompleteSeeds ←
    if includeAutocomplete ∧ query ≠ [] then autoResult else Except.ok []
  let kmap := keywordMapOf gscRows autocompleteSeeds
  Except.ok
    { query := query
      siteUrl := siteUrl
      geo := geo
      timeRange := timeRange
      includeAutocomplete := includeAutocomplete
      clusters := clusterCore kmap maxKeywords }

/-! ### Lemmas about the scoring and sorting building blocks -/

section ScoringLemmas

lemma normSat_nonneg (v : ℚ) : 0 ≤ norm v := by
  unfold norm
  have hs : (0 : ℚ) ≤ max 0 v := le_max_left 0 v
  have hd : (0 : ℚ) < max 0 v + 1000 := by linarith
  exact le_min (by norm_num) (div_nonneg hs hd.le)

lemma normSat_le_one (v : ℚ) : norm v ≤ 1 := min_le_left 1 _

lemma normSat_mono {a b : ℚ} (h : a ≤ b) : norm a ≤ norm b := by
  unfold norm
  apply min_le_min le_rfl
  have ha : (0 : ℚ) ≤ max 0 a := le_max_left 0 a
  have hab : max 0 a ≤ max 0 b := max_le_max le_rfl h
  have hda : (0 : ℚ) < max 0 a + 1000 := by linarith
  have hdb : (0 : ℚ) < max 0 b + 1000 := by linarith
  rw [div_le_div_iff₀ hda hdb]
  nlinarith

lemma ite_one_zero_nonneg {c : Prop} [Decidable c] :
    (0 : ℚ) ≤ if c then (1 : ℚ) else 0 := by
  by_cases h : c
  · rw [if_pos h]; norm_num
  · rw [if_neg h]

lemma ite_one_zero_le_one {c : Prop} [Decidable c] :
    (if c then (1 : ℚ) else 0) ≤ 1 := by
  by_cases h : c
  · rw [if_pos h]
  · rw [if_neg h]; norm_num

lemma priorityScore_bounds (s c p : ℚ) (t : PageType) :
    0 ≤ priorityScore s c p t ∧ priorityScore s c p t ≤ 100 := by
  unfold priorityScore jsRound
  have h1 := normSat_nonneg s
  have h2 := normSat_le_one s
  have h3 := normSat_nonneg c
  have h4 := normSat_le_one c
  have h5 := normSat_nonneg p
  have h6 := normSat_le_one p
  have h7 : (0 : ℚ) ≤ if t = PageType.new then (1 : ℚ) else 0 := ite_one_zero_nonneg
  have h8 : (if t = PageType.new then (1 : ℚ) else 0) ≤ 1 := ite_one_zero_le_one
  constructor
  · have : ((0 : ℤ) : ℚ) ≤ 100 *
        ((0.35 : ℚ) * norm s + (0.25 : ℚ) * norm c + (0.2 : ℚ) * (1 - norm p) +
          (0.15 : ℚ) * (if t = PageType.new then (1 : ℚ) else 0)) + 1 / 2 := by
      push_cast
      nlinarith
    exact Int.le_floor.mpr this
  · have hlt : 100 *
        ((0.35 : ℚ) * norm s + (0.25 : ℚ) * norm c + (0.2 : ℚ) * (1 - norm p) +
          (0.15 : ℚ) * (if t = PageType.new then (1 : ℚ) else 0)) + 1 / 2 <
        ((101 : ℤ) : ℚ) := by
      push_cast
      nlinarith
    have := Int.floor_lt.mpr hlt
    omega

lemma insertBefore_perm {α : Type} (pred : α → α → Bool) (x : α) (l : List α) :
    (insertBefore pred x l).Perm (x :: l) := by
  induction l with
  | nil => exact List.Perm.refl _
  | cons y ys ih =>
    unfold insertBefore
    by_cases h : pred x y
    · rw [if_pos h]
    · rw [if_neg h]
      exact (ih.cons y).trans (List.Perm.swap x y ys)

lemma sortByComparator_perm {α : Type} (pred : α → α → Bool) (l : List α) :
    (sortByComparator pred l).Perm l := by
  induction l with
  | nil => exact List.Perm.refl _
  | cons x xs ih => exact (insertBefore_perm pred x _).trans (ih.cons x)

/-- The spec's saturating normalization `max(0,x) / (max(0,x) + 1000)`
(§4.4 of the spec); the code's `norm` wraps it in a redundant `min 1`,
since the quotient is always below 1. -/
def normSpec (x : ℚ) : ℚ := max 0 x / (max 0 x + 1000)

lemma norm_eq_normSpec (v : ℚ) : norm v = normSpec v := by
  unfold norm normSpec
  apply min_eq_right
  have h0 : (0 : ℚ) ≤ max 0 v := le_max_left _ _
  have hd : (0 : ℚ) < max 0 v + 1000 := by linarith
  rw [div_le_one hd]
  linarith

lemma priorityScore_eq_spec (s c p : ℚ) (t : PageType) :
    priorityScore s c p t = jsRound (100 *
      ((0.35 : ℚ) * normSpec s + (0.25 : ℚ) * normSpec c +
       (0.2 : ℚ) * (1 - normSpec p) +
       (0.15 : ℚ) * (if t = PageType.new then 1 else 0))) := by
  unfold priorityScore
  rw [norm_eq_normSpec, norm_eq_normSpec, norm_eq_normSpec]

end ScoringLemmas

/-- C8. Increasing a cluster's summed impressions, holding average CTR,
average position and the mapped-page type fixed, never decreases the
computed priority score. -/
theorem C8_priority_monotone_in_impressions (s s' avgCtr avgPosition : ℚ)
    (mappedType : PageType) (h : s ≤ s') :
    priorityScore s avgCtr avgPosition mappedType ≤
      priorityScore s' avgCtr avgPosition mappedType := by
  unfold priorityScore jsRound
  apply Int.floor_le_floor
  have := normSat_mono h
  nlinarith

/-- Instance of the monotonicity theorem at impressions 0 ≤ 1. -/
theorem C8_priority_monotone_witness :
    priorityScore 0 0 0 PageType.new ≤ priorityScore 1 0 0 PageType.new :=
  C8_priority_monotone_in_impressions 0 1 0 0 PageType.new (by norm_num)

/-- C2. Every cluster produced by the clustering stage carries
`priority = round(100·(0.35·norm(sumImpressions) + 0.25·norm(avgCTR) +
0.20·(1 − norm(avgPosition)) + 0.15·[mapped page is new]))` over its own
rollup fields, and this value always lies between 0 and 100. -/
theorem C2_priority_formula_and_bounds (kmap : KMap) (maxKeywords : ℕ)
    (r : KeywordClusterRecommendation) (hr : r ∈ clusterCore kmap maxKeywords) :
    r.priority = jsRound (100 *
      ((0.35 : ℚ) * normSpec r.rollup.sumImpressions +
       (0.25 : ℚ) * normSpec r.rollup.avgCtr +
       (0.2 : ℚ) * (1 - normSpec r.rollup.avgPosition) +
       (0.15 : ℚ) * (if r.mappedPage.type = PageType.new then 1 else 0)))
    ∧ 0 ≤ r.priority ∧ r.priority ≤ 100 := by
  simp only [clusterCore, clusterCoreWith] at hr
  have hr' := (sortByComparator_perm
    (fun a b : KeywordClusterRecommendation => decide (b.priority ≤ a.priority))
    _).mem_iff.mp hr
  obtain ⟨g, _, rfl⟩ := List.mem_map.mp hr'
  refine ⟨?_, ?_, ?_⟩
  · exact priorityScore_eq_spec _ _ _ _
  · exact (priorityScore_bounds _ _ _ _).1
  · exact (priorityScore_bounds _ _ _ _).2

/-- Concrete single-keyword map used to instantiate the pipeline
theorems. -/
def kmapW : KMap := [("a".toList, zeroMetrics ("a".toList))]

/-- The priority formula and bounds, instantiated on a concrete
one-keyword clustering run. -/
theorem C2_priority_witness :
    (clusterToRec kmapW ["a".toList]).priority = jsRound (100 *
      ((0.35 : ℚ) * normSpec (clusterToRec kmapW ["a".toList]).rollup.sumImpressions +
       (0.25 : ℚ) * normSpec (clusterToRec kmapW ["a".toList]).rollup.avgCtr +
       (0.2 : ℚ) * (1 - normSpec (clusterToRec kmapW ["a".toList]).rollup.avgPosition) +
       (0.15 : ℚ) * (if (clusterToRec kmapW ["a".toList]).mappedPage.type =
          PageType.new then 1 else 0)))
    ∧ 0 ≤ (clusterToRec kmapW ["a".toList]).priority
    ∧ (clusterToRec kmapW ["a".toList]).priority ≤ 100 :=
  C2_priority_formula_and_bounds kmapW 1 (clusterToRec kmapW ["a".toList])
    (by rw [show clusterCore kmapW 1 = [clusterToRec kmapW ["a".toList]] from rfl]
        exact List.mem_singleton.mpr rfl)

/-- C1 counterexample.  With the analytics fetch succeeding and the
expansion fetch failing (autocomplete enabled, non-empty query), the
invocation does not return a clusters result: the expansion rejection
propagates through `Promise.all` and fails the whole call. -/
theorem C1_counterexample :
    getKeywordClusters ("solar".toList) ("https://example.com".toList)
      ("US".toList) ("last_90_days".toList) true 2000
      (Except.ok [{ query := "solar".toList, page := "/p".toList, clicks := 1,
                    impressions := 10, ctr := 0.1, position := 3 }])
      (Except.error "autocomplete failed") =
      Except.error "autocomplete failed" := rfl

/-- C1 amended.  Whenever the autocomplete fetch is consulted
(`includeAutocomplete` set, non-empty query) and rejects while the
analytics fetch succeeds, `getKeywordClusters` fails with the expansion
error instead of returning a result; the expansion failure is fatal, not
treated as an empty expansion-term list. -/
theorem C1_expansion_failure_propagates (query siteUrl geo timeRange : NStr)
    (maxKeywords : ℕ) (rows : List GscRow) (e : String) (hq : query ≠ []) :
    getKeywordClusters query siteUrl geo timeRange true maxKeywords
      (Except.ok rows) (Except.error e) = Except.error e := by
  unfold getKeywordClusters
  split
  · rfl
  · next h => exact absurd ⟨rfl, hq⟩ h

/-- The amended propagation statement on a concrete failing input. -/
theorem C1_expansion_failure_witness :
    getKeywordClusters ("solar panels".toList) ("https://example.com".toList)
      ("US".toList) ("last_90_days".toList) true 2000 (Except.ok [])
      (Except.error "boom") = Except.error "boom" :=
  C1_expansion_failure_propagates ("solar panels".toList)
    ("https://example.com".toList) ("US".toList) ("last_90_days".toList)
    2000 [] "boom" (by decide)

/-! ### The expansion-merge frame property -/

section AssocLemmas

lemma assocGet_append {α β : Type} [DecidableEq α] (m l : List (α × β)) (k : α) :
    assocGet (m ++ l) k = (assocGet m k).or (assocGet l k) := by
  induction m with
  | nil => rfl
  | cons p rest ih =>
    obtain ⟨k', v⟩ := p
    by_cases h : k' = k
    · simp only [List.cons_append, assocGet, if_pos h, Option.or]
    · simp only [List.cons_append, assocGet, if_neg h]
      exact ih

lemma addSeed_preserves (m : KMap) (s : NStr) (k : NStr) (v : KeywordMetrics)
    (h : assocGet m k = some v) : assocGet (addSeed m s) k = some v := by
  unfold addSeed
  by_cases h0 : normalize s = []
  · rw [if_pos h0]; exact h
  · rw [if_neg h0]
    cases hget : assocGet m (normalize s) with
    | some _ => exact h
    | none => rw [assocGet_append, h]; rfl

lemma addSeeds_preserves (seeds : List NStr) (m : KMap) (k : NStr)
    (v : KeywordMetrics) (h : assocGet m k = some v) :
    assocGet (addSeeds m seeds) k = some v := by
  induction seeds generalizing m with
  | nil => exact h
  | cons s rest ih => exact ih _ (addSeed_preserves m s k v h)

lemma addSeeds_adds (seeds : List NStr) (m : KMap) (t : NStr) (ht : t ∈ seeds)
    (hne : normalize t ≠ [])
    (h : assocGet m (normalize t) = none ∨
      assocGet m (normalize t) = some (zeroMetrics (normalize t))) :
    assocGet (addSeeds m seeds) (normalize t) = some (zeroMetrics (normalize t)) := by
  induction seeds generalizing m with
  | nil => exact absurd ht (List.not_mem_nil t)
  | cons s rest ih =>
    show assocGet (addSeeds (addSeed m s) rest) (normalize t) = _
    rcases List.mem_cons.mp ht with rfl | ht'
    · -- the head seed is `t` itself: after `addSeed` the entry is present
      have hpresent : assocGet (addSeed m t) (normalize t) =
          some (zeroMetrics (normalize t)) := by
        unfold addSeed
        rw [if_neg hne]
        rcases h with hnone | hsome
        · rw [hnone, assocGet_append, hnone]
          simp only [Option.or]
          show (if normalize t = normalize t then some (zeroMetrics (normalize t))
            else none) = _
          rw [if_pos rfl]
        · rw [hsome]; exact hsome
      exact addSeeds_preserves rest _ _ _ hpresent
    · -- the head seed is someone else; the invariant on `normalize t` persists
      rcases h with hnone | hsome
      · by_cases hst : normalize s = normalize t
        · apply ih _ ht'
          by_cases hs0 : normalize s = []
          · left; unfold addSeed; rw [if_pos hs0]; exact hnone
          · right
            unfold addSeed
            rw [if_neg hs0, hst, hnone, assocGet_append, hnone]
            simp only [Option.or]
            show (if normalize t = normalize t then some (zeroMetrics (normalize t))
              else none) = _
            rw [if_pos rfl]
        · apply ih _ ht'
          left
          unfold addSeed
          by_cases hs0 : normalize s = []
          · rw [if_pos hs0]; exact hnone
          · rw [if_neg hs0]
            cases hget : assocGet m (normalize s) with
            | some _ => exact hnone
            | none =>
              rw [assocGet_append, hnone]
              simp only [Option.or]
              show (if normalize s = normalize t then some (zeroMetrics (normalize s))
                else none) = none
              rw [if_neg hst]
      · exact addSeeds_preserves rest _ _ _ (addSeed_preserves m s _ _ hsome)

end AssocLemmas

/-- C7. Merging expansion seeds into the keyword map never modifies an
existing entry — every key present before keeps exactly its stored metrics —
and every seed whose normalized form is non-empty and not already a key
ends up as a fresh zero-metric entry (`clicks = impressions = 0`, empty
sample lists, empty page set). -/
theorem C7_expansion_merge_frame (m : KMap) (seeds : List NStr) :
    (∀ k v, assocGet m k = some v → assocGet (addSeeds m seeds) k = some v)
    ∧ (∀ t ∈ seeds, normalize t ≠ [] → assocGet m (normalize t) = none →
        assocGet (addSeeds m seeds) (normalize t) =
          some (zeroMetrics (normalize t))) :=
  ⟨fun k v h => addSeeds_preserves seeds m k v h,
   fun t ht hne h => addSeeds_adds seeds m t ht hne (Or.inl h)⟩

/-- The frame property on a concrete map and seed list: the existing entry
for "a" is untouched and the new seed "ab" is added with zero metrics. -/
theorem C7_expansion_merge_witness :
    assocGet (addSeeds kmapW ["ab".toList]) ("a".toList) =
      some (zeroMetrics ("a".toList))
    ∧ assocGet (addSeeds kmapW ["ab".toList]) (normalize ("ab".toList)) =
      some (zeroMetrics (normalize ("ab".toList))) :=
  ⟨(C7_expansion_merge_frame kmapW ["ab".toList]).1 ("a".toList)
      (zeroMetrics ("a".toList)) rfl,
   (C7_expansion_merge_frame kmapW ["ab".toList]).2 ("ab".toList)
      (List.mem_singleton.mpr rfl) (by decide) (by decide)⟩

/-! ### Zero-sample clusters -/

lemma accum_counts (kmap : KMap) (members : List NStr)
    (h : ∀ k ∈ members, ∀ m, assocGet kmap k = some m →
      m.ctrs = [] ∧ m.positions = []) (acc : ClusterAccum) :
    (members.foldl (accumMember kmap) acc).ctrCount = acc.ctrCount ∧
    (members.foldl (accumMember kmap) acc).posCount = acc.posCount := by
  induction members generalizing acc with
  | nil => exact ⟨rfl, rfl⟩
  | cons k rest ih =>
    have hstep : (accumMember kmap acc k).ctrCount = acc.ctrCount ∧
        (accumMember kmap acc k).posCount = acc.posCount := by
      unfold accumMember
      cases hget : assocGet kmap k with
      | none => exact ⟨rfl, rfl⟩
      | some metrics =>
        obtain ⟨hc, hp⟩ := h k (List.mem_cons_self _ _) metrics hget
        constructor
        · show (if metrics.ctrs.length ≠ 0 then acc.ctrCount + 1
            else acc.ctrCount) = acc.ctrCount
          rw [hc]
          simp
        · show (if metrics.positions.length ≠ 0 then acc.posCount + 1
            else acc.posCount) = acc.posCount
          rw [hp]
          simp
    have ihh := ih (fun k' hk' => h k' (List.mem_cons_of_mem _ hk'))
      (accumMember kmap acc k)
    exact ⟨ihh.1.trans hstep.1, ihh.2.trans hstep.2⟩

lemma recommendationMessages_at_zero (t : PageType) (label : NStr) :
    recommendationMessages t 0 0 label =
      ["Improve meta title for \"" ++ String.mk label ++ "\" to boost CTR.",
       "Add internal links from related pages."] := by
  unfold recommendationMessages
  rw [if_neg (by intro ⟨_, h5, _⟩; norm_num at h5),
    if_neg (by intro ⟨_, h15⟩; norm_num at h15),
    if_pos (⟨by norm_num, by norm_num⟩ : (0 : ℚ) < 0.02 ∧ (0 : ℚ) ≤ 5)]
  rfl

/-- C9. A cluster none of whose members carry CTR or position samples
(for example one made only of expansion-derived zero-metric keywords) gets
`avgCtr = 0` and `avgPosition = 0`, and its recommendations are exactly the
"Improve meta title …" message followed by the always-present
internal-links message. -/
theorem C9_zero_sample_recommendations (kmap : KMap) (members : List NStr)
    (h : ∀ k ∈ members, ∀ m, assocGet kmap k = some m →
      m.ctrs = [] ∧ m.positions = []) :
    (clusterToRec kmap members).rollup.avgCtr = 0
    ∧ (clusterToRec kmap members).rollup.avgPosition = 0
    ∧ (clusterToRec kmap members).recommendations =
        ["Improve meta title for \"" ++
          String.mk (clusterToRec kmap members).label ++ "\" to boost CTR.",
         "Add internal links from related pages."] := by
  obtain ⟨hc', hp'⟩ := accum_counts kmap members h accumInit
  have hc : (members.foldl (accumMember kmap) accumInit).ctrCount = 0 := hc'.trans rfl
  have hp : (members.foldl (accumMember kmap) accumInit).posCount = 0 := hp'.trans rfl
  have hctr : (clusterToRec kmap members).rollup.avgCtr = 0 := by
    show (if (members.foldl (accumMember kmap) accumInit).ctrCount = 0 then (0 : ℚ)
      else _) = 0
    rw [if_pos hc]
  have hpos : (clusterToRec kmap members).rollup.avgPosition = 0 := by
    show (if (members.foldl (accumMember kmap) accumInit).posCount = 0 then (0 : ℚ)
      else _) = 0
    rw [if_pos hp]
  refine ⟨hctr, hpos, ?_⟩
  have hrec : (clusterToRec kmap members).recommendations =
      recommendationMessages (clusterToRec kmap members).mappedPage.type
        (clusterToRec kmap members).rollup.avgPosition
        (clusterToRec kmap members).rollup.avgCtr
        (clusterToRec kmap members).label := rfl
  rw [hrec, hctr, hpos, recommendationMessages_at_zero]

/-- The zero-sample consequence on a concrete one-member cluster. -/
theorem C9_zero_sample_witness :
    (clusterToRec kmapW ["a".toList]).rollup.avgCtr = 0
    ∧ (clusterToRec kmapW ["a".toList]).rollup.avgPosition = 0
    ∧ (clusterToRec kmapW ["a".toList]).recommendations =
        ["Improve meta title for \"" ++
          String.mk (clusterToRec kmapW ["a".toList]).label ++ "\" to boost CTR.",
         "Add internal links from related pages."] :=
  C9_zero_sample_recommendations kmapW ["a".toList] (by
    intro k hk m hm
    rw [List.mem_singleton.mp hk] at hm
    have : m = zeroMetrics ("a".toList) := by
      have h0 : assocGet kmapW ("a".toList) = some (zeroMetrics ("a".toList)) := rfl
      rw [h0] at hm
      exact (Option.some.injEq _ _ ▸ hm).symm
    rw [this]
    exact ⟨rfl, rfl⟩)

/-! ### The partition property of the cluster builder -/

section PartitionLemmas

lemma assocGet_eq_none {α β : Type} [DecidableEq α] (m : List (α × β)) (k : α) :
    assocGet m k = none ↔ k ∉ m.map Prod.fst := by
  induction m with
  | nil => simp [assocGet]
  | cons p rest ih =>
    obtain ⟨k', v⟩ := p
    by_cases h : k' = k
    · subst h
      simp [assocGet]
    · simp only [assocGet, if_neg h, List.map_cons, List.mem_cons, ih]
      constructor
      · intro hn hm
        rcases hm with hm | hm
        · exact h hm.symm
        · exact hn hm
      · intro hn
        exact fun hm => hn (Or.inr hm)

lemma assocSet_map_fst {α β : Type} [DecidableEq α] (m : List (α × β)) (k : α)
    (v : β) (h : k ∈ m.map Prod.fst) :
    (assocSet m k v).map Prod.fst = m.map Prod.fst := by
  induction m with
  | nil => simp at h
  | cons p rest ih =>
    obtain ⟨k', v'⟩ := p
    by_cases hk : k' = k
    · simp [assocSet, if_pos hk]
    · simp only [List.map_cons, List.mem_cons] at h
      rcases h with h | h
      · exact absurd h.symm hk
      · simp [assocSet, if_neg hk, ih h]

lemma addRow_map_fst (m : KMap) (row : GscRow) :
    ((addRow m row).map Prod.fst = m.map Prod.fst) ∨
    ((addRow m row).map Prod.fst = m.map Prod.fst ++ [normalize row.query] ∧
      normalize row.query ∉ m.map Prod.fst) := by
  unfold addRow
  by_cases h0 : normalize row.query = []
  · rw [if_pos h0]; left; rfl
  · rw [if_neg h0]
    cases hget : assocGet m (normalize row.query) with
    | some existing =>
      left
      apply assocSet_map_fst
      by_contra hmem
      rw [← assocGet_eq_none] at hmem
      rw [hget] at hmem
      exact Option.noConfusion hmem
    | none =>
      right
      refine ⟨by rw [List.map_append]; rfl, (assocGet_eq_none m _).mp hget⟩

lemma addSeed_map_fst (m : KMap) (seed : NStr) :
    ((addSeed m seed).map Prod.fst = m.map Prod.fst) ∨
    ((addSeed m seed).map Prod.fst = m.map Prod.fst ++ [normalize seed] ∧
      normalize seed ∉ m.map Prod.fst) := by
  unfold addSeed
  by_cases h0 : normalize seed = []
  · rw [if_pos h0]; left; rfl
  · rw [if_neg h0]
    cases hget : assocGet m (normalize seed) with
    | some existing => left; rfl
    | none =>
      right
      refine ⟨by rw [List.map_append]; rfl, (assocGet_eq_none m _).mp hget⟩

lemma nodup_append_singleton {α : Type} {l : List α} {a : α}
    (h : l.Nodup) (ha : a ∉ l) : (l ++ [a]).Nodup :=
  h.append (List.nodup_singleton a) (fun _ hx hxa => ha ((List.mem_singleton.mp hxa) ▸ hx))

lemma addRow_keys_nodup (m : KMap) (row : GscRow)
    (h : (m.map Prod.fst).Nodup) : ((addRow m row).map Prod.fst).Nodup := by
  rcases addRow_map_fst m row with heq | ⟨heq, hnm⟩
  · rw [heq]; exact h
  · rw [heq]; exact nodup_append_singleton h hnm

lemma addSeed_keys_nodup (m : KMap) (seed : NStr)
    (h : (m.map Prod.fst).Nodup) : ((addSeed m seed).map Prod.fst).Nodup := by
  rcases addSeed_map_fst m seed with heq | ⟨heq, hnm⟩
  · rw [heq]; exact h
  · rw [heq]; exact nodup_append_singleton h hnm

lemma foldl_addRow_keys_nodup (rows : List GscRow) (m : KMap)
    (h : (m.map Prod.fst).Nodup) :
    ((rows.foldl addRow m).map Prod.fst).Nodup := by
  induction rows generalizing m with
  | nil => exact h
  | cons row rest ih => exact ih _ (addRow_keys_nodup m row h)

lemma foldl_addSeed_keys_nodup (seeds : List NStr) (m : KMap)
    (h : (m.map Prod.fst).Nodup) :
    ((seeds.foldl addSeed m).map Prod.fst).Nodup := by
  induction seeds generalizing m with
  | nil => exact h
  | cons s rest ih => exact ih _ (addSeed_keys_nodup m s h)

lemma keywordMapOf_keys_nodup (rows : List GscRow) (seeds : List NStr) :
    (((keywordMapOf rows seeds)).map Prod.fst).Nodup :=
  foldl_addSeed_keys_nodup seeds _ (foldl_addRow_keys_nodup rows [] List.nodup_nil)

lemma addToGroups_flatten (k root : NStr) (gs : List (NStr × List NStr)) :
    ((addToGroups k root gs).map Prod.snd).flatten.Perm
      (((gs.map Prod.snd).flatten) ++ [k]) := by
  induction gs with
  | nil => exact List.Perm.refl _
  | cons p rest ih =>
    obtain ⟨r, ms⟩ := p
    by_cases h : r = root
    · simp only [addToGroups, if_pos h, List.map_cons, List.flatten_cons]
      rw [List.append_assoc ms [k], List.append_assoc ms]
      exact List.Perm.append_left ms List.perm_append_comm
    · simp only [addToGroups, if_neg h, List.map_cons, List.flatten_cons]
      rw [List.append_assoc ms]
      exact List.Perm.append_left ms ih

lemma groupFold_flatten (f : NStr → NStr) (kws : List NStr) :
    ∀ acc, ((kws.foldl (fun acc k => addToGroups k (f k) acc) acc).map
      Prod.snd).flatten.Perm (((acc.map Prod.snd).flatten) ++ kws) := by
  induction kws with
  | nil => intro acc; simp
  | cons k rest ih =>
    intro acc
    have e : (((acc.map Prod.snd).flatten) ++ [k]) ++ rest =
        ((acc.map Prod.snd).flatten) ++ (k :: rest) := by
      rw [List.append_assoc]; rfl
    exact (ih _).trans
      (e ▸ (addToGroups_flatten k (f k) acc).append_right rest)

lemma groupByRoot_flatten (f : NStr → NStr) (kws : List NStr) :
    ((groupByRoot f kws).map Prod.snd).flatten.Perm kws := by
  have := groupFold_flatten f kws []
  simpa [groupByRoot] using this

lemma flatten_filter_pos {α : Type} (gs : List (List α)) :
    ((gs.filter (fun g => decide (0 < g.length))).flatten) = gs.flatten := by
  induction gs with
  | nil => rfl
  | cons g rest ih =>
    by_cases h : 0 < g.length
    · rw [List.filter_cons_of_pos (by simpa using h), List.flatten_cons,
        List.flatten_cons, ih]
    · have hg : g = [] := List.length_eq_zero.mp (Nat.eq_zero_of_not_pos h)
      rw [List.filter_cons_of_neg (by simpa using h), List.flatten_cons, ih, hg]
      rfl

lemma clusterToRec_memberKeywords (kmap : KMap) (g : List NStr) :
    (clusterToRec kmap g).keywords.map KeywordDetail.keyword = g := by
  show (g.map _).map KeywordDetail.keyword = g
  rw [List.map_map]
  exact List.map_id'' (fun _ => rfl) g

end PartitionLemmas

section SingletonLemmas

lemma addToGroups_fresh (k root : NStr) (gs : List (NStr × List NStr))
    (h : root ∉ gs.map Prod.fst) : addToGroups k root gs = gs ++ [(root, [k])] := by
  induction gs with
  | nil => rfl
  | cons p rest ih =>
    obtain ⟨r, ms⟩ := p
    simp only [List.map_cons, List.mem_cons] at h
    push_neg at h
    simp only [addToGroups, List.cons_append]
    rw [ih h.2, if_neg (fun hr => h.1 hr.symm)]

lemma groupFold_id (f : NStr → NStr) :
    ∀ (kws : List NStr) (acc : List (NStr × List NStr)), kws.Nodup →
      (∀ k ∈ kws, f k = k) → (∀ k ∈ kws, k ∉ acc.map Prod.fst) →
      kws.foldl (fun acc k => addToGroups k (f k) acc) acc =
        acc ++ kws.map (fun k => (k, [k])) := by
  intro kws
  induction kws with
  | nil => intro acc _ _ _; simp
  | cons k rest ih =>
    intro acc hnd hf hfresh
    have hfk : f k = k := hf k (List.mem_cons_self _ _)
    show rest.foldl _ (addToGroups k (f k) acc) = _
    rw [hfk, addToGroups_fresh k k acc (hfresh k (List.mem_cons_self _ _))]
    rw [ih (acc ++ [(k, [k])]) (List.Nodup.of_cons hnd)
      (fun k' hk' => hf k' (List.mem_cons_of_mem _ hk'))
      (by
        intro k' hk'
        rw [List.map_append, List.mem_append]
        push_neg
        refine ⟨hfresh k' (List.mem_cons_of_mem _ hk'), ?_⟩
        simp only [List.map_cons, List.map_nil, List.mem_singleton]
        intro hkk
        subst hkk
        exact (List.nodup_cons.mp hnd).1 hk')]
    rw [List.append_assoc]
    rfl

lemma groupByRoot_id (f : NStr → NStr) (kws : List NStr) (hnd : kws.Nodup)
    (hf : ∀ k ∈ kws, f k = k) :
    groupByRoot f kws = kws.map (fun k => (k, [k])) := by
  unfold groupByRoot
  rw [groupFold_id f kws [] hnd hf (by intro k _; simp)]
  rfl

lemma assocGet_map_self (kws : List NStr) (k : NStr) (h : k ∈ kws) :
    assocGet (kws.map fun y => (y, y)) k = some k := by
  induction kws with
  | nil => simp at h
  | cons x rest ih =>
    by_cases hx : x = k
    · subst hx
      simp [assocGet]
    · rcases List.mem_cons.mp h with h' | h'
      · exact absurd h'.symm hx
      · simp only [List.map_cons, assocGet, if_neg hx]
        exact ih h'

lemma ufFind_of_self (parent : List (NStr × NStr)) (k : NStr)
    (h : assocGet parent k = some k) (fuel : ℕ) :
    ufFind parent (fuel + 1) k = k := by
  unfold ufFind
  rw [h]
  simp

end SingletonLemmas

section ClusterCoreLemmas

lemma sorted_map_flatten (kmap : KMap)
    (pred : KeywordClusterRecommendation → KeywordClusterRecommendation → Bool)
    (clusters : List (List NStr)) :
    ((sortByComparator pred (clusters.map (clusterToRec kmap))).map
      (fun r => r.keywords.map KeywordDetail.keyword)).flatten.Perm
      clusters.flatten := by
  have h2 := (sortByComparator_perm pred (clusters.map (clusterToRec kmap))).map
    (fun r => r.keywords.map KeywordDetail.keyword)
  have h3 : (clusters.map (clusterToRec kmap)).map
      (fun r => r.keywords.map KeywordDetail.keyword) = clusters := by
    rw [List.map_map]
    exact List.map_id'' (fun g => clusterToRec_memberKeywords kmap g) clusters
  rw [h3] at h2
  exact h2.flatten

lemma clusterCoreWith_flatten_perm (edge : KeywordMetrics → KeywordMetrics → Bool)
    (kmap : KMap) (maxKeywords : ℕ) :
    ((clusterCoreWith edge kmap maxKeywords).map
      (fun r => r.keywords.map KeywordDetail.keyword)).flatten.Perm
      ((kmap.map Prod.fst).take maxKeywords) := by
  simp only [clusterCoreWith]
  refine (sorted_map_flatten kmap _ _).trans ?_
  rw [flatten_filter_pos]
  exact groupByRoot_flatten _ _

lemma clusterCoreWith_empty (edge : KeywordMetrics → KeywordMetrics → Bool)
    (kmap : KMap) (maxKeywords : ℕ)
    (h : (kmap.map Prod.fst).take maxKeywords = []) :
    clusterCoreWith edge kmap maxKeywords = [] := by
  simp only [clusterCoreWith, h]
  rfl

lemma clusterCoreWith_no_edges (edge : KeywordMetrics → KeywordMetrics → Bool)
    (kmap : KMap) (maxKeywords : ℕ)
    (hnd : ((kmap.map Prod.fst).take maxKeywords).Nodup)
    (hno : ∀ p ∈ orderedPairs ((kmap.map Prod.fst).take maxKeywords),
      hasEdgeKWith edge kmap p.1 p.2 = false) :
    (clusterCoreWith edge kmap maxKeywords).length =
      ((kmap.map Prod.fst).take maxKeywords).length
    ∧ ∀ r ∈ clusterCoreWith edge kmap maxKeywords,
        (r.keywords.map KeywordDetail.keyword).length = 1 := by
  have hedge : (orderedPairs ((kmap.map Prod.fst).take maxKeywords)).filter
      (fun p => hasEdgeKWith edge kmap p.1 p.2) = [] :=
    List.filter_eq_nil_iff.mpr (fun p hp => by rw [hno p hp]; simp)
  have hgroups : groupByRoot
      (fun k => ufFind (((kmap.map Prod.fst).take maxKeywords).map fun k => (k, k))
        ((((kmap.map Prod.fst).take maxKeywords).map fun k => (k, k)).length + 1) k)
      ((kmap.map Prod.fst).take maxKeywords) =
      ((kmap.map Prod.fst).take maxKeywords).map (fun k => (k, [k])) := by
    apply groupByRoot_id _ _ hnd
    intro k hk
    exact ufFind_of_self _ _ (assocGet_map_self _ k hk) _
  have hclusters :
      (((((kmap.map Prod.fst).take maxKeywords).map (fun k => (k, [k]))).map
        Prod.snd).filter (fun g => decide (0 < g.length))) =
      ((kmap.map Prod.fst).take maxKeywords).map (fun k => [k]) := by
    rw [List.map_map]
    have : (Prod.snd ∘ fun k : NStr => (k, [k])) = fun k => [k] := rfl
    rw [this]
    apply List.filter_eq_self.mpr
    intro g hg
    obtain ⟨k, _, rfl⟩ := List.mem_map.mp hg
    simp
  constructor
  · show (clusterCoreWith edge kmap maxKeywords).length = _
    simp only [clusterCoreWith, hedge, List.foldl_nil, hgroups, hclusters]
    rw [(sortByComparator_perm _ _).length_eq, List.length_map, List.length_map]
  · intro r hr
    simp only [clusterCoreWith, hedge, List.foldl_nil, hgroups, hclusters] at hr
    have hr' := (sortByComparator_perm
      (fun a b : KeywordClusterRecommendation => decide (b.priority ≤ a.priority))
      _).mem_iff.mp hr
    obtain ⟨g, hg, rfl⟩ := List.mem_map.mp hr'
    obtain ⟨k, _, rfl⟩ := List.mem_map.mp hg
    rw [clusterToRec_memberKeywords]
    rfl

end ClusterCoreLemmas

/-- C4. The clusters returned by one invocation partition the truncated
keyword set: the concatenation of all cluster member lists is a permutation
of the (duplicate-free) truncated keyword list, so every keyword lies in
exactly one cluster and none appears twice; with no keywords the output is
empty, and with no similarity edges there are exactly as many singleton
clusters as keywords.  The pipeline is a total function — no exception is
possible. -/
theorem C4_clusters_partition (rows : List GscRow) (seeds : List NStr)
    (maxKeywords : ℕ) :
    ((clusterCore (keywordMapOf rows seeds) maxKeywords).map
        (fun r => r.keywords.map KeywordDetail.keyword)).flatten.Perm
      (((keywordMapOf rows seeds).map Prod.fst).take maxKeywords)
    ∧ (((keywordMapOf rows seeds).map Prod.fst).take maxKeywords).Nodup
    ∧ ((((keywordMapOf rows seeds).map Prod.fst).take maxKeywords) = [] →
        clusterCore (keywordMapOf rows seeds) maxKeywords = [])
    ∧ ((∀ p ∈ orderedPairs (((keywordMapOf rows seeds).map Prod.fst).take maxKeywords),
          hasEdgeKWith hasEdge (keywordMapOf rows seeds) p.1 p.2 = false) →
        (clusterCore (keywordMapOf rows seeds) maxKeywords).length =
          (((keywordMapOf rows seeds).map Prod.fst).take maxKeywords).length
        ∧ ∀ r ∈ clusterCore (keywordMapOf rows seeds) maxKeywords,
            (r.keywords.map KeywordDetail.keyword).length = 1) := by
  have hnd : (((keywordMapOf rows seeds).map Prod.fst).take maxKeywords).Nodup :=
    (List.take_sublist _ _).nodup (keywordMapOf_keys_nodup rows seeds)
  refine ⟨clusterCoreWith_flatten_perm hasEdge _ _, hnd,
    fun h => clusterCoreWith_empty hasEdge _ _ h,
    fun hno => clusterCoreWith_no_edges hasEdge _ _ hnd hno⟩

/-- The partition property on a concrete one-seed run: the single expansion
keyword forms the single singleton cluster. -/
theorem C4_partition_witness :
    ((clusterCore (keywordMapOf [] ["solar".toList]) 5).map
        (fun r => r.keywords.map KeywordDetail.keyword)).flatten.Perm
      (((keywordMapOf [] ["solar".toList]).map Prod.fst).take 5)
    ∧ (clusterCore (keywordMapOf [] ["solar".toList]) 5).length =
        (((keywordMapOf [] ["solar".toList]).map Prod.fst).take 5).length :=
  ⟨(C4_clusters_partition [] ["solar".toList] 5).1,
   ((C4_clusters_partition [] ["solar".toList] 5).2.2.2 (by decide)).1⟩

/-- C6. Removing the shared-destination-page signal changes nothing:
the edge predicate is unchanged pointwise — an edge exists iff Jaccard
≥ 0.6 or (normalized Levenshtein ≤ 0.15 and Jaccard ≥ 0.4), the fixed 0.3
page signal being below the 0.6 threshold — and therefore the whole
clustering stage produces identical output. -/
theorem C6_shared_page_signal_redundant (kmap : KMap) (maxKeywords : ℕ) :
    (∀ mA mB, hasEdgeNoPage mA mB = hasEdge mA mB)
    ∧ (∀ mA mB, hasEdge mA mB = true ↔
        ((0.6 : ℚ) ≤ jaccard mA.tokens.dedup mB.tokens.dedup ∨
          (levenshteinNorm mA.keyword mB.keyword ≤ (0.15 : ℚ) ∧
            (0.4 : ℚ) ≤ jaccard mA.tokens.dedup mB.tokens.dedup)))
    ∧ clusterCoreWith hasEdgeNoPage kmap maxKeywords =
        clusterCore kmap maxKeywords := by
  have hfun : hasEdgeNoPage = hasEdge :=
    funext fun a => funext fun b => (hasEdge_eq_hasEdgeNoPage a b).symm
  exact ⟨fun mA mB => (hasEdge_eq_hasEdgeNoPage mA mB).symm,
    hasEdge_iff_jac_or_lev,
    by rw [hfun]; rfl⟩

/-- The page-signal redundancy on concrete metrics and a concrete map. -/
theorem C6_shared_page_witness :
    hasEdgeNoPage (zeroMetrics ("a".toList)) (zeroMetrics ("b".toList)) =
      hasEdge (zeroMetrics ("a".toList)) (zeroMetrics ("b".toList))
    ∧ clusterCoreWith hasEdgeNoPage kmapW 1 = clusterCore kmapW 1 :=
  ⟨(C6_shared_page_signal_redundant kmapW 1).1 _ _,
   (C6_shared_page_signal_redundant kmapW 1).2.2⟩

/-! ### The autocomplete expansion loop (`src/lib/googleAutocomplete.ts`) -/

lemma sum_map_const {α : Type} (l : List α) (c : ℕ) :
    (l.map (fun _ => c)).sum = l.length * c := by
  induction l with
  | nil => simp
  | cons x rest ih => simp [ih, Nat.succ_mul, Nat.add_comm]

/-- The sequential deduplicating collection of suggestions
(`if (!collected.has(suggestion)) collected.add(suggestion)`). -/
def collectNew (collected : List NStr) (suggestions : List NStr) : List NStr :=
  suggestions.foldl (fun c s => if s ∈ c then c else c ++ [s]) collected

lemma collectNew_nodup (suggestions : List NStr) (collected : List NStr)
    (h : collected.Nodup) : (collectNew collected suggestions).Nodup := by
  induction suggestions generalizing collected with
  | nil => exact h
  | cons s rest ih =>
    show (collectNew (if s ∈ collected then collected else collected ++ [s]) rest).Nodup
    by_cases hs : s ∈ collected
    · rw [if_pos hs]; exact ih _ h
    · rw [if_neg hs]; exact ih _ (nodup_append_singleton h hs)

/-- The breadth-and-depth-limited expansion loop of `fetchAutocomplete`
(`googleAutocomplete.ts`, lines 19–57), as a queue-driven recursion over a
pure suggestion oracle.  In addition to the collected suggestions it
returns the list of terms the oracle was queried for (each
`fetchAutocompleteSuggestions` call).  The `AbortSignal` early exit is not
modelled. -/
def fetchAutocompleteLoop (suggest : NStr → List NStr)
    (maxDepth branchFactor : ℕ) (visited collected queried : List NStr)
    (queue : List (NStr × ℕ)) : List NStr × List NStr :=
  match queue with
  | [] => (collected, queried)
  | (term, d) :: rest =>
    if maxDepth ≤ d then
      fetchAutocompleteLoop suggest maxDepth branchFactor visited collected
        queried rest
    else if term ∈ visited then
      fetchAutocompleteLoop suggest maxDepth branchFactor visited collected
        queried rest
    else
      let visited' := term :: visited
      let suggestions := suggest term
      let collected' := collectNew collected suggestions
      let queried' := queried ++ [term]
      if maxDepth ≤ d + 1 then
        fetchAutocompleteLoop suggest maxDepth branchFactor visited' collected'
          queried' rest
      else
        fetchAutocompleteLoop suggest maxDepth branchFactor visited' collected'
          queried'
          (rest ++ (((suggestions.take branchFactor).filter
            (fun s => decide (s ∉ visited'))).map (fun s => (s, d + 1))))
termination_by
  (queue.map (fun p => (branchFactor + 1) ^ (maxDepth - p.2))).sum
decreasing_by
  · simp only [List.map_cons, List.sum_cons]
    have hpos : 0 < (branchFactor + 1) ^ (maxDepth - d) :=
      pow_pos (Nat.succ_pos _) _
    omega
  · simp only [List.map_cons, List.sum_cons]
    have hpos : 0 < (branchFactor + 1) ^ (maxDepth - d) :=
      pow_pos (Nat.succ_pos _) _
    omega
  · simp only [List.map_cons, List.sum_cons]
    have hpos : 0 < (branchFactor + 1) ^ (maxDepth - d) :=
      pow_pos (Nat.succ_pos _) _
    omega
  · simp only [List.map_cons, List.sum_cons, List.map_append, List.sum_append,
      List.map_map]
    have hcomp : ((fun p : NStr × ℕ => (branchFactor + 1) ^ (maxDepth - p.2)) ∘
        fun s => (s, d + 1)) = fun _ => (branchFactor + 1) ^ (maxDepth - (d + 1)) :=
      rfl
    rw [hcomp, sum_map_const]
    have hlen : (((suggest term).take branchFactor).filter
        (fun s => decide (s ∉ term :: visited))).length ≤ branchFactor :=
      le_trans (List.length_filter_le _ _) (by simp)
    have hsucc : maxDepth - d = (maxDepth - (d + 1)) + 1 := by omega
    have hpow : (((suggest term).take branchFactor).filter
          (fun s => decide (s ∉ term :: visited))).length *
          (branchFactor + 1) ^ (maxDepth - (d + 1)) <
        (branchFactor + 1) ^ (maxDepth - d) := by
      rw [hsucc, pow_succ]
      have hp : 0 < (branchFactor + 1) ^ (maxDepth - (d + 1)) :=
        pow_pos (Nat.succ_pos _) _
      calc _ ≤ branchFactor * (branchFactor + 1) ^ (maxDepth - (d + 1)) :=
            Nat.mul_le_mul_right _ hlen
        _ < (branchFactor + 1) ^ (maxDepth - (d + 1)) * (branchFactor + 1) := by
            rw [Nat.mul_comm]
            exact (Nat.mul_lt_mul_left hp).mpr (Nat.lt_succ_self branchFactor)
    omega

/-- `fetchAutocomplete` from `googleAutocomplete.ts`: clamp depth and
branch factor to at least 1, seed the queue with the query at depth 0, and
return the collected suggestions. -/
def fetchAutocomplete (suggest : NStr → List NStr) (query : NStr)
    (depth branchFactor : ℕ) : List NStr :=
  (fetchAutocompleteLoop suggest (max 1 depth) (max 1 branchFactor)
    [] [] [] [(query, 0)]).1

/-- The terms the oracle is queried for during the same run. -/
def fetchAutocompleteQueried (suggest : NStr → List NStr) (query : NStr)
    (depth branchFactor : ℕ) : List NStr :=
  (fetchAutocompleteLoop suggest (max 1 depth) (max 1 branchFactor)
    [] [] [] [(query, 0)]).2

lemma fetchAutocompleteLoop_nodup (suggest : NStr → List NStr)
    (maxDepth branchFactor : ℕ) (visited collected queried : List NStr)
    (queue : List (NStr × ℕ)) :
    collected.Nodup → queried.Nodup → (∀ t ∈ queried, t ∈ visited) →
    (fetchAutocompleteLoop suggest maxDepth branchFactor visited collected
      queried queue).1.Nodup
    ∧ (fetchAutocompleteLoop suggest maxDepth branchFactor visited collected
      queried queue).2.Nodup := by
  induction visited, collected, queried, queue using
    fetchAutocompleteLoop.induct suggest maxDepth branchFactor with
  | case1 visited collected queried =>
    intro hc hq _
    unfold fetchAutocompleteLoop
    exact ⟨hc, hq⟩
  | case2 visited collected queried term d rest hle ih =>
    intro hc hq hv
    unfold fetchAutocompleteLoop
    rw [if_pos hle]
    exact ih hc hq hv
  | case3 visited collected queried term d rest hle hmem ih =>
    intro hc hq hv
    unfold fetchAutocompleteLoop
    rw [if_neg hle, if_pos hmem]
    exact ih hc hq hv
  | case4 visited collected queried term d rest hle hmem visited' suggestions collected' queried' hle1 ih =>
    intro hc hq hv
    unfold fetchAutocompleteLoop
    rw [if_neg hle, if_neg hmem]
    simp only []
    rw [if_pos hle1]
    refine ih (collectNew_nodup _ _ hc)
      (nodup_append_singleton hq (fun ht => hmem (hv term ht))) ?_
    intro t ht
    rcases List.mem_append.mp ht with ht' | ht'
    · exact List.mem_cons_of_mem _ (hv t ht')
    · rw [List.mem_singleton.mp ht']
      exact List.mem_cons_self _ _
  | case5 visited collected queried term d rest hle hmem visited' suggestions collected' queried' hle1 ih =>
    intro hc hq hv
    unfold fetchAutocompleteLoop
    rw [if_neg hle, if_neg hmem]
    simp only []
    rw [if_neg hle1]
    refine ih (collectNew_nodup _ _ hc)
      (nodup_append_singleton hq (fun ht => hmem (hv term ht))) ?_
    intro t ht
    rcases List.mem_append.mp ht with ht' | ht'
    · exact List.mem_cons_of_mem _ (hv t ht')
    · rw [List.mem_singleton.mp ht']
      exact List.mem_cons_self _ _

/-- C10. For every suggestion oracle, seed query, depth bound and
branch factor, the expansion loop is a total function (it terminates — the
recursion is well-founded by the queue measure, every enqueued follow-up
seed carrying a strictly greater depth below the bound and at most
`branchFactor` seeds being enqueued per expansion), the oracle is queried
at most once per term (the visited-set-guarded query list is
duplicate-free), and the returned suggestion list is duplicate-free. -/
theorem C10_autocomplete_loop_bounded (suggest : NStr → List NStr)
    (query : NStr) (depth branchFactor : ℕ) :
    (fetchAutocomplete suggest query depth branchFactor).Nodup
    ∧ (fetchAutocompleteQueried suggest query depth branchFactor).Nodup := by
  have h := fetchAutocompleteLoop_nodup suggest (max 1 depth)
    (max 1 branchFactor) [] [] [] [(query, 0)] List.nodup_nil List.nodup_nil
    (fun t ht => absurd ht (List.not_mem_nil t))
  exact ⟨h.1, h.2⟩

end KeywordClusters
